import Mathlib

/-
Verification of the ui5linter-github-check pipeline.

This file shallowly embeds the JavaScript sources of the repository:

  * src/ui5lintCheckRepos.js — the batch scheduler: `runUI5Linter`,
    `findUI5Apps`, `processBatch` and `main` (checkpointed super-batches).
  * src/searchGitHub.js — the legacy combined pipeline with its own
    `processBatch` and `main` (results merged with the prior file contents,
    persistence only after the whole loop).
  * src/analyize.js — the aggregator `processFilePair`.

External effects (git clone, readdir, subprocess execution, JSON.parse) are
modelled by oracles supplied through an environment record; JavaScript
exceptions are modelled with `Except`.  Filesystem paths are modelled as
lists of path components (`path.join dir name` becomes `dir ++ [name]`,
`path.relative root p` becomes the component list of `p` relative to
`root`).  JavaScript `Set` objects are modelled as insertion-ordered
duplicate-free lists; plain objects used as string-keyed counter maps are
modelled as insertion-ordered association lists, which matches JavaScript
property-enumeration order for the non-integer-like keys (lint rule ids,
message texts, URLs) that the program uses.
-/

namespace UI5

/-! ## Data model: linter output and repository records -/

/-- One diagnostic message of the lint tool (fields used by analyize.js). -/
structure LintMessage where
  ruleId : String
  message : String
deriving DecidableEq

/-- One per-file result object of the lint tool's JSON report.  `messages`
is an `Option` because analyize.js probes `result.messages` for presence
before using it. -/
structure LintFileResult where
  errorCount : Nat
  messages : Option (List LintMessage)
deriving DecidableEq

/-- One entry of a repository result's `apps` array: the sub-project path
(relative to the clone root, as path components) and the linter report.
`linterResult` is an `Option` because analyize.js probes it for presence. -/
structure AppResult where
  appPath : List String
  linterResult : Option (List LintFileResult)
deriving DecidableEq

/-- The repository metadata stored by ui5lintCheckRepos.js in each result
(`{ id, html_url }`). -/
structure RepoMetaLite where
  id : Nat
  html_url : String
deriving DecidableEq

/-- One Repository Result as written to the results file by
ui5lintCheckRepos.js and as read by analyize.js. -/
structure RepoResult where
  repoMetadata : RepoMetaLite
  apps : List AppResult
deriving DecidableEq

/-- An entry of ui5-repos.json as consumed by ui5lintCheckRepos.js. -/
structure Repo where
  id : Nat
  full_name : String
  html_url : String
deriving DecidableEq

/-! ## JavaScript exceptions and the Lint Runner (runUI5Linter) -/

/-- A JavaScript exception value.  `execError` is an error thrown by
`execSync`, which carries the captured standard output of the child process
(`none` when the process never produced a capturable stream); `otherError`
is any other exception (e.g. a `SyntaxError` from `JSON.parse`), which has
no `stdout` property. -/
inductive JsError where
  | execError (stdout : Option String) (msg : String)
  | otherError (msg : String)
deriving DecidableEq

/-- The `.stdout` property access on a caught exception:
`undefined` for exceptions that are not `execSync` errors. -/
def JsError.stdoutField : JsError → Option String
  | .execError s _ => s
  | .otherError _ => none

/-- src/ui5lintCheckRepos.js lines 47-66 (and the identical function in
src/searchGitHub.js): run the lint tool and parse its JSON output.

`exec` is the outcome of `execSync("npx @ui5/linter --format json")` for the
given working directory (`.ok stdout` on exit 0, `.error e` on a throw) and
`parse` is the outcome of `JSON.parse` on a given string.  The body mirrors
the JavaScript `try`/`catch` exactly: on a caught exception, if the
exception's truthy `stdout` (nonempty string) parses, the parsed value is
returned; every other path logs and returns `null` (`Except.ok none`);
the function itself never throws. -/
def runUI5Linter {α : Type} (exec : Except JsError String)
    (parse : String → Except JsError α) : Except JsError (Option α) :=
  match (match exec with
    | Except.error e => Except.error e
    | Except.ok result =>
      match parse result with
      | Except.error e => Except.error e
      | Except.ok parsed => Except.ok (some parsed) : Except JsError (Option α)) with
  | Except.ok v => Except.ok v
  | Except.error e =>
    match e.stdoutField with
    | some s =>
      -- `if (error.stdout)`: the empty string is falsy in JavaScript
      if s = "" then Except.ok none
      else
        match parse s with
        | Except.ok v => Except.ok (some v)
        | Except.error _ => Except.ok none  -- parse error: logged, fall through
    | none => Except.ok none                -- no stdout: logged, return null

/-! ## Filesystem model and sub-project discovery (findUI5Apps) -/

/-- A directory listing: a sequence of named entries, each either a plain
file or a directory with its own listing.  (A forest rather than a nested
list keeps all recursion structural.) -/
inductive FsForest where
  | nil : FsForest
  | fileE (name : String) (rest : FsForest) : FsForest
  | dirE (name : String) (children : FsForest) (rest : FsForest) : FsForest
deriving DecidableEq

/-- `fs.existsSync(dir/m)`: some entry (file or directory) named `m`
exists in the listing. -/
def existsEntry : FsForest → String → Bool
  | .nil, _ => false
  | .fileE n rest, m => if n = m then true else existsEntry rest m
  | .dirE n _ rest, m => if n = m then true else existsEntry rest m

/-- Resolve entry `m` of a listing as a directory (used when a path
continues below `m`); `none` when `m` is absent or is a plain file. -/
def childDir : FsForest → String → Option FsForest
  | .nil, _ => none
  | .fileE n rest, m => if n = m then none else childDir rest m
  | .dirE n cs rest, m => if n = m then some cs else childDir rest m

/-- The structural test of src/ui5lintCheckRepos.js lines 29-34: the
directory with listing `cs` has a `ui5.yaml` entry, a `webapp` entry, and
`webapp/manifest.json` exists (which additionally requires `webapp` to
resolve as a directory). -/
def isUI5App (cs : FsForest) : Bool :=
  existsEntry cs "ui5.yaml" && existsEntry cs "webapp" &&
    (match childDir cs "webapp" with
     | some w => existsEntry w "manifest.json"
     | none => false)

/-- src/ui5lintCheckRepos.js lines 22-44 (and the identical function in
src/searchGitHub.js): recursively collect every sub-directory that passes
the structural test; a qualifying directory is pushed and not descended
into, a non-qualifying directory is searched recursively.  `pfx` is the
path of the directory whose listing is being iterated; the root call uses
`[]` so results are relative to the clone root (the `path.relative` applied
by the callers). -/
def findUI5Apps (pfx : List String) : FsForest → List (List String)
  | .nil => []
  | .fileE _ rest => findUI5Apps pfx rest
  | .dirE n cs rest =>
    (if isUI5App cs then [pfx ++ [n]] else findUI5Apps (pfx ++ [n]) cs) ++
      findUI5Apps pfx rest

/-- Resolve a component path to the listing of the directory it denotes. -/
def dirAt (cs : FsForest) : List String → Option FsForest
  | [] => some cs
  | n :: p =>
    match childDir cs n with
    | some cs2 => dirAt cs2 p
    | none => none

/-- The directory at path `p` (relative to the root listing `cs`) exists
and passes the structural test. -/
def qualifiesAt (cs : FsForest) (p : List String) : Bool :=
  match dirAt cs p with
  | some cs2 => isUI5App cs2
  | none => false

/-- Well-formedness of a directory listing as a real filesystem guarantees
it: sibling names are distinct at every level. -/
def wfForest : FsForest → Bool
  | .nil => true
  | .fileE n rest => !existsEntry rest n && wfForest rest
  | .dirE n cs rest => !existsEntry rest n && wfForest cs && wfForest rest

/-- Path `q` denotes a qualifying directory none of whose proper ancestors
strictly below the root qualifies (the directories `findUI5Apps` reports). -/
def minimalQual (cs : FsForest) (q : List String) : Prop :=
  q ≠ [] ∧ qualifiesAt cs q = true ∧
    ∀ q1 q2, q1 ++ q2 = q → q1 ≠ [] → q2 ≠ [] → qualifiesAt cs q1 = false

/-! ## Checkpoint Set (a JavaScript Set of id strings) -/

/-- `processedRepos.has(x)`: membership in the insertion-ordered set. -/
def setHas (s : List String) (x : String) : Bool :=
  s.any (fun y => decide (y = x))

/-- `processedRepos.add(x)`: JavaScript `Set.add` is a no-op on a present
element, otherwise appends in insertion order. -/
def setAdd (s : List String) (x : String) : List String :=
  if setHas s x then s else s ++ [x]

/-! ## The per-repository processing sequence of processBatch -/

/-- Observable external invocations made while processing repositories;
each carries the repository id it was made for. -/
inductive Event where
  | fetchMeta (id : Nat)
  | clone (id : Nat)
  | discover (id : Nat)
  | lint (id : Nat) (appPath : List String)
  | cleanup (id : Nat)
deriving DecidableEq

/-- The repository a processing event belongs to. -/
def Event.repoId : Event → Nat
  | .fetchMeta i => i
  | .clone i => i
  | .discover i => i
  | .lint i _ => i
  | .cleanup i => i

/-- Oracle for one repository's external world: the outcome of
`git clone` (its working tree on success), of the `readdir` traversal made
by `findUI5Apps`, of `execSync` for each sub-project lint invocation, and
of `JSON.parse` on any string. -/
structure RepoEnv where
  cloneOutcome : Except JsError FsForest
  discoverOutcome : Except JsError Unit
  lintExec : List String → Except JsError String
  parse : String → Except JsError (List LintFileResult)

/-- src/ui5lintCheckRepos.js lines 122-135: the `for (const appPath of
ui5Apps)` loop.  Returns the lint events issued and either the accumulated
`apps` entries or the exception that escaped the loop (per
`runUI5Linter_never_throws` the error branch is unreachable, but the
embedding keeps the propagation path of the `await`). -/
def lintLoop (env : RepoEnv) (i : Nat) :
    List (List String) → List AppResult → List Event × Except JsError (List AppResult)
  | [], acc => ([], Except.ok acc)
  | a :: rest, acc =>
    match runUI5Linter (env.lintExec a) env.parse with
    | Except.error e => ([Event.lint i a], Except.error e)
    | Except.ok none =>
      let o := lintLoop env i rest acc
      (Event.lint i a :: o.1, o.2)
    | Except.ok (some lr) =>
      let o := lintLoop env i rest (acc ++ [⟨a, some lr⟩])
      (Event.lint i a :: o.1, o.2)

/-- The `try`/`catch` body of the per-repository block of `processBatch`
(src/ui5lintCheckRepos.js lines 110-142): clone, discover, lint each
sub-project, build the repository result.  `none` means the block threw and
the `catch` logged the error. -/
def processRepoCore (env : RepoEnv) (repo : Repo) : Option RepoResult × List Event :=
  match env.cloneOutcome with
  | Except.error _ => (none, [Event.clone repo.id])
  | Except.ok tree =>
    match env.discoverOutcome with
    | Except.error _ => (none, [Event.clone repo.id, Event.discover repo.id])
    | Except.ok _ =>
      let apps := findUI5Apps [] tree
      let lo := lintLoop env repo.id apps []
      match lo.2 with
      | Except.error _ => (none, Event.clone repo.id :: Event.discover repo.id :: lo.1)
      | Except.ok appResults =>
        (some ⟨⟨repo.id, repo.html_url⟩, appResults⟩,
         Event.clone repo.id :: Event.discover repo.id :: lo.1)

/-- The whole per-repository block including the `finally`: the temporary
clone directory is removed unconditionally when processing ends
(`fsPromises.rm(tempDir, { recursive: true, force: true })`, modelled as
never throwing since `force` suppresses removal errors). -/
def processRepo (env : RepoEnv) (repo : Repo) : Option RepoResult × List Event :=
  ((processRepoCore env repo).1, (processRepoCore env repo).2 ++ [Event.cleanup repo.id])

/-- src/ui5lintCheckRepos.js lines 98-150, `processBatch`: iterate the
batch, skipping every repository whose stringified id is in the Checkpoint
Set; on success push the repository result and add the id to the set, on a
caught error do neither.  Returns (results, updated set, events). -/
def processBatch (env : Nat → RepoEnv) :
    List Repo → List String → List RepoResult × List String × List Event
  | [], s => ([], s, [])
  | repo :: rest, s =>
    if setHas s (toString repo.id) then processBatch env rest s
    else
      match processRepo (env repo.id) repo with
      | (some res, evs) =>
        let o := processBatch env rest (setAdd s (toString repo.id))
        (res :: o.1, o.2.1, evs ++ o.2.2)
      | (none, evs) =>
        let o := processBatch env rest s
        (o.1, o.2.1, evs ++ o.2.2)

/-! ## The Batch Scheduler main loop of ui5lintCheckRepos.js -/

/-- Run-level observable actions: a processing event, the
"Processed X out of Y" log that closes a super-batch, and the two durable
writes (results file, checkpoint file). -/
inductive RunEvent where
  | proc (e : Event)
  | superBatchDone
  | persistResults
  | persistCheckpoint
deriving DecidableEq

/-- The repository id of a processing event, `none` for run-level events. -/
def RunEvent.procId : RunEvent → Option Nat
  | .proc e => some e.repoId
  | .superBatchDone => none
  | .persistResults => none
  | .persistCheckpoint => none

/-- The five slices `unprocessedRepos.slice(i + j*20, i + j*20 + 20)` of
one super-batch, expressed on the remaining list `rem = drop i`. -/
def sliceBatches {α : Type} (rem : List α) : List (List α) :=
  (List.range 5).map (fun j => (rem.drop (j * 20)).take 20)

/-- `await Promise.all(batchPromises)` followed by `.flat()`: the five
batches of one super-batch share the (mutated) Checkpoint Set; the
cooperative single-threaded scheduling is modelled sequentially. -/
def runBatches (env : Nat → RepoEnv) :
    List (List Repo) → List String → List RepoResult × List String × List Event
  | [], s => ([], s, [])
  | b :: bs, s =>
    let o1 := processBatch env b s
    let o2 := runBatches env bs o1.2.1
    (o1.1 ++ o2.1, o2.2.1, o1.2.2 ++ o2.2.2)

/-- src/ui5lintCheckRepos.js lines 173-191: the super-batch loop
(`for (let i = 0; i < unprocessedRepos.length; i += batchSize * numBatches)`
with batchSize 20, numBatches 5).  Each iteration processes up to 100
repositories, logs completion, then writes the accumulated results and the
Checkpoint Set.  The loop is driven by fuel that the wrapper instantiates
with the list length (each iteration consumes 100 ≥ 1 elements, so the
fuel never runs out on the wrapper's call). -/
def ui5lintLoop (env : Nat → RepoEnv) :
    Nat → List Repo → List String → List RepoResult →
    List RepoResult × List String × List RunEvent
  | _, [], s, acc => (acc, s, [])
  | 0, _ :: _, s, acc => (acc, s, [])
  | fuel + 1, r :: rest, s, acc =>
    let o := runBatches env (sliceBatches (r :: rest)) s
    let acc' := acc ++ o.1
    let o2 := ui5lintLoop env fuel ((r :: rest).drop 100) o.2.1 acc'
    (o2.1, o2.2.1,
     o.2.2.map RunEvent.proc ++
       [RunEvent.superBatchDone, RunEvent.persistResults, RunEvent.persistCheckpoint] ++
       o2.2.2)

/-- src/ui5lintCheckRepos.js line 166: repositories already in the
Checkpoint Set are filtered out before partitioning. -/
def unprocessedList (repos : List Repo) (processed0 : List String) : List Repo :=
  repos.filter (fun r => !setHas processed0 (toString r.id))

/-- What a run leaves behind: the in-memory results, the final Checkpoint
Set, the event trace, and the contents of the results file after the final
write. -/
structure RunOutput (ρ : Type) where
  results : List ρ
  processed : List String
  trace : List RunEvent
  resultsFile : List ρ
deriving DecidableEq

/-- src/ui5lintCheckRepos.js `main` (lines 152-197): filter out
checkpointed repositories, run the super-batch loop, then write the final
results and checkpoint.  The final `writeFile` stringifies only this run's
`allResults`: the prior contents of the results file (`fileBefore`) are
never read and are overwritten. -/
def ui5lintMain (env : Nat → RepoEnv) (repos : List Repo)
    (processed0 : List String) (fileBefore : List RepoResult) : RunOutput RepoResult :=
  let unprocessed := unprocessedList repos processed0
  let o := ui5lintLoop env unprocessed.length unprocessed processed0 []
  { results := o.1
    processed := o.2.1
    trace := o.2.2 ++ [RunEvent.persistResults, RunEvent.persistCheckpoint]
    resultsFile := o.1 }

/-! ## The legacy pipeline of searchGitHub.js -/

/-- A code-search hit as iterated by searchGitHub.js (`repo.repository`). -/
structure SearchHit where
  repository : Repo
deriving DecidableEq

/-- A repository result of searchGitHub.js: the full metadata fetched by
`getRepoMetadata` (`none` when the fetch failed and returned null). -/
structure SearchRepoResult where
  repoMetadata : Option RepoMetaLite
  apps : List AppResult
deriving DecidableEq

/-- The `try`/`catch` body of searchGitHub.js's `processBatch`
(lines 140-176): fetch metadata (never throws — failures yield null and
processing continues), clone, discover, lint. -/
def searchProcessRepoCore (env : RepoEnv) (meta : Option RepoMetaLite)
    (hit : SearchHit) : Option SearchRepoResult × List Event :=
  let i := hit.repository.id
  match env.cloneOutcome with
  | Except.error _ => (none, [Event.fetchMeta i, Event.clone i])
  | Except.ok tree =>
    match env.discoverOutcome with
    | Except.error _ => (none, [Event.fetchMeta i, Event.clone i, Event.discover i])
    | Except.ok _ =>
      let apps := findUI5Apps [] tree
      let lo := lintLoop env i apps []
      match lo.2 with
      | Except.error _ =>
        (none, Event.fetchMeta i :: Event.clone i :: Event.discover i :: lo.1)
      | Except.ok appResults =>
        (some ⟨meta, appResults⟩,
         Event.fetchMeta i :: Event.clone i :: Event.discover i :: lo.1)

/-- searchGitHub.js per-repository block including the `finally` cleanup. -/
def searchProcessRepo (env : RepoEnv) (meta : Option RepoMetaLite)
    (hit : SearchHit) : Option SearchRepoResult × List Event :=
  ((searchProcessRepoCore env meta hit).1,
   (searchProcessRepoCore env meta hit).2 ++ [Event.cleanup hit.repository.id])

/-- searchGitHub.js lines 133-182, `processBatch`: same skip/checkpoint
discipline as the ui5lintCheckRepos.js version, on `repo.repository.id`. -/
def searchProcessBatch (env : Nat → RepoEnv) (meta : Nat → Option RepoMetaLite) :
    List SearchHit → List String → List SearchRepoResult × List String × List Event
  | [], s => ([], s, [])
  | hit :: rest, s =>
    let i := hit.repository.id
    if setHas s (toString i) then searchProcessBatch env meta rest s
    else
      match searchProcessRepo (env i) (meta i) hit with
      | (some res, evs) =>
        let o := searchProcessBatch env meta rest (setAdd s (toString i))
        (res :: o.1, o.2.1, evs ++ o.2.2)
      | (none, evs) =>
        let o := searchProcessBatch env meta rest s
        (o.1, o.2.1, evs ++ o.2.2)

/-- searchGitHub.js `Promise.all` over the five batches of a super-batch. -/
def searchRunBatches (env : Nat → RepoEnv) (meta : Nat → Option RepoMetaLite) :
    List (List SearchHit) → List String →
    List SearchRepoResult × List String × List Event
  | [], s => ([], s, [])
  | b :: bs, s =>
    let o1 := searchProcessBatch env meta b s
    let o2 := searchRunBatches env meta bs o1.2.1
    (o1.1 ++ o2.1, o2.2.1, o1.2.2 ++ o2.2.2)

/-- searchGitHub.js lines 196-212: the super-batch loop.  It logs
completion of each super-batch but, unlike ui5lintCheckRepos.js, performs
no write inside the loop. -/
def searchLoop (env : Nat → RepoEnv) (meta : Nat → Option RepoMetaLite) :
    Nat → List SearchHit → List String → List SearchRepoResult →
    List SearchRepoResult × List String × List RunEvent
  | _, [], s, acc => (acc, s, [])
  | 0, _ :: _, s, acc => (acc, s, [])
  | fuel + 1, h :: rest, s, acc =>
    let o := searchRunBatches env meta (sliceBatches (h :: rest)) s
    let acc' := acc ++ o.1
    let o2 := searchLoop env meta fuel ((h :: rest).drop 100) o.2.1 acc'
    (o2.1, o2.2.1, o.2.2.map RunEvent.proc ++ [RunEvent.superBatchDone] ++ o2.2.2)

/-- searchGitHub.js `main` (lines 186-232): iterate all hits (no up-front
filter), then — only after the whole loop — load the existing results file,
concatenate this run's results onto it, and write file and checkpoint
once. -/
def searchMain (env : Nat → RepoEnv) (meta : Nat → Option RepoMetaLite)
    (hits : List SearchHit) (processed0 : List String)
    (fileBefore : List SearchRepoResult) : RunOutput SearchRepoResult :=
  let o := searchLoop env meta hits.length hits processed0 []
  { results := o.1
    processed := o.2.1
    trace := o.2.2 ++ [RunEvent.persistResults, RunEvent.persistCheckpoint]
    resultsFile := fileBefore ++ o.1 }

/-- The temporal property of §4.5 of the spec: whenever a super-batch
completes (the "Processed X out of Y" log), the very next run-level actions
are the results write and the checkpoint write — before any further
repository processing. -/
def persistsAfterEachSuperBatch : List RunEvent → Bool
  | [] => true
  | RunEvent.superBatchDone :: rest =>
    match rest with
    | RunEvent.persistResults :: RunEvent.persistCheckpoint :: rest2 =>
      persistsAfterEachSuperBatch rest2
    | _ => false
  | RunEvent.proc _ :: rest => persistsAfterEachSuperBatch rest
  | RunEvent.persistResults :: rest => persistsAfterEachSuperBatch rest
  | RunEvent.persistCheckpoint :: rest => persistsAfterEachSuperBatch rest

/-! ## The Aggregator of analyize.js (processFilePair) -/

/-- `obj[k] = (obj[k] ?? 0) + 1` on a string-keyed counter object:
increment in place, or append a new key in insertion order. -/
def objBump (m : List (String × Nat)) (k : String) : List (String × Nat) :=
  if m.any (fun p => decide (p.1 = k)) then
    m.map (fun p => if p.1 = k then (p.1, p.2 + 1) else p)
  else m ++ [(k, 1)]

/-- The mutable accumulators of processFilePair (src/analyize.js
lines 25-30). -/
structure AggState where
  totalApps : Nat
  totalLinterErrors : Nat
  ruleViolations : List (String × Nat)
  reposWithErrors : List String
  deprecatedApiMessages : List (String × Nat)
deriving DecidableEq

/-- src/analyize.js lines 42-56: count one message into the rule table and,
for rule `no-deprecated-api`, into the message-text table. -/
def processMessage (st : AggState) (msg : LintMessage) : AggState :=
  let st := { st with ruleViolations := objBump st.ruleViolations msg.ruleId }
  if msg.ruleId = "no-deprecated-api" then
    { st with deprecatedApiMessages := objBump st.deprecatedApiMessages msg.message }
  else st

/-- `result.messages && result.messages.length > 0`. -/
def resultHasMessages (r : LintFileResult) : Bool :=
  match r.messages with
  | some ms => decide (0 < ms.length)
  | none => false

/-- src/analyize.js lines 38-57: one tool-reported result object.  Only
when its messages are present and nonempty does it contribute its
`errorCount`, its repository URL, and its messages. -/
def processResult (url : String) (st : AggState) (r : LintFileResult) : AggState :=
  if resultHasMessages r then
    let st := { st with
      totalLinterErrors := st.totalLinterErrors + r.errorCount
      reposWithErrors := setAdd st.reposWithErrors url }
    (match r.messages with
     | some ms => ms.foldl processMessage st
     | none => st)
  else st

/-- src/analyize.js lines 35-59: one `apps` entry: always counted into
`totalApps`; its results are processed when `linterResult` is present. -/
def processApp (url : String) (st : AggState) (app : AppResult) : AggState :=
  let st := { st with totalApps := st.totalApps + 1 }
  match app.linterResult with
  | some results => results.foldl (processResult url) st
  | none => st

/-- `repo.apps && repo.apps.length > 0`. -/
def repoHasApps (repo : RepoResult) : Bool :=
  decide (0 < repo.apps.length)

/-- src/analyize.js lines 33-61: one repository result. -/
def processRepoAgg (st : AggState) (repo : RepoResult) : AggState :=
  if repoHasApps repo then
    repo.apps.foldl (processApp repo.repoMetadata.html_url) st
  else st

/-- The first pass of processFilePair over the whole data array. -/
def aggregate (data : List RepoResult) : AggState :=
  data.foldl processRepoAgg ⟨0, 0, [], [], []⟩

/-- Stable descending insertion by count: the new element goes in front of
the first element whose count is ≤ its own, i.e. before later-encountered
ties and after earlier-encountered ones. -/
def insertDesc (x : String × Nat) : List (String × Nat) → List (String × Nat)
  | [] => [x]
  | y :: ys => if y.2 ≤ x.2 then x :: y :: ys else y :: insertDesc x ys

/-- `Object.entries(m).sort((a, b) => b[1] - a[1])`: JavaScript's sort is
required to be stable, so its result is exactly "descending by count, ties
in original entry order" — realised here by a stable insertion sort. -/
def sortByCountDesc : List (String × Nat) → List (String × Nat)
  | [] => []
  | x :: xs => insertDesc x (sortByCountDesc xs)

/-- The report object of processFilePair (src/analyize.js lines 72-85),
restricted to the fields the verified claims are about. -/
structure Report where
  totalRepositories : Nat
  repositoriesWithApps : Nat
  totalApps : Nat
  totalLinterErrors : Nat
  repositoriesWithErrors : Nat
  topRuleViolations : List (String × Nat)
  allRuleViolations : List (String × Nat)
  deprecatedApiMessages : List (String × Nat)
deriving DecidableEq

/-- src/analyize.js `processFilePair` (lines 19-130) as a pure function of
the parsed input file. -/
def processFilePair (data : List RepoResult) : Report :=
  let st := aggregate data
  let sortedViolations := sortByCountDesc st.ruleViolations
  let sortedDeprecated := sortByCountDesc st.deprecatedApiMessages
  { totalRepositories := data.length
    repositoriesWithApps := (data.filter repoHasApps).length
    totalApps := st.totalApps
    totalLinterErrors := st.totalLinterErrors
    repositoriesWithErrors := st.reposWithErrors.length
    topRuleViolations := sortedViolations.take 5
    allRuleViolations := sortedViolations
    deprecatedApiMessages := sortedDeprecated }

/-! ## Concrete environments and data fixtures used by witnesses and counterexamples -/

/-- An environment in which every clone attempt fails. -/
def envErr : Nat → RepoEnv := fun _ =>
  ⟨Except.error (JsError.otherError "clone failed"), Except.ok (),
   fun _ => Except.error (JsError.otherError "lint failed"),
   fun _ => Except.error (JsError.otherError "parse failed")⟩

/-- A one-element prior results file. -/
def fileR1 : List RepoResult := [⟨⟨1, "https://example/r1"⟩, []⟩]

/-- An environment whose clones succeed with an empty working tree and
whose lint invocations fail without output. -/
def envOkEmpty : Nat → RepoEnv := fun _ =>
  ⟨Except.ok FsForest.nil, Except.ok (),
   fun _ => Except.error (JsError.otherError "no stdout"),
   fun _ => Except.error (JsError.otherError "bad json")⟩

/-- A concrete repository for witnesses. -/
def repo1 : Repo := ⟨1, "o/r1", "https://u1"⟩

/-- 101 search hits with distinct ids: enough for two super-batches. -/
def hits101 : List SearchHit :=
  (List.range 101).map (fun i => ⟨⟨i, "owner/name", "https://u"⟩⟩)

/-- Input for the ranking scenario of the claim: three rules first
encountered in the order a, b, c with counts 5, 3, 3. -/
def c8data : List RepoResult :=
  [⟨⟨1, "https://u"⟩,
    [⟨["app"], some
      [⟨0, some
        [⟨"rule-a", "m"⟩, ⟨"rule-a", "m"⟩, ⟨"rule-a", "m"⟩, ⟨"rule-a", "m"⟩,
         ⟨"rule-a", "m"⟩,
         ⟨"rule-b", "m"⟩, ⟨"rule-b", "m"⟩, ⟨"rule-b", "m"⟩,
         ⟨"rule-c", "m"⟩, ⟨"rule-c", "m"⟩, ⟨"rule-c", "m"⟩]⟩]⟩]⟩]

/-- The two Repository Results of the scenario: one with a single
sub-project whose report has two identical `no-deprecated-api` messages
and errorCount 7, one with no sub-projects. -/
def c9data : List RepoResult :=
  [⟨⟨1, "https://r1"⟩,
    [⟨["app1"], some
      [⟨7, some
        [⟨"no-deprecated-api", "Use of deprecated API"⟩,
         ⟨"no-deprecated-api", "Use of deprecated API"⟩]⟩]⟩]⟩,
   ⟨⟨2, "https://r2"⟩, []⟩]

/-- Drop, from every sub-project report, the result objects with absent or
empty messages. -/
def stripApp (a : AppResult) : AppResult :=
  ⟨a.appPath, a.linterResult.map (fun rs => rs.filter resultHasMessages)⟩

/-- Drop empty-message results from every app of a repository result. -/
def stripRepo (r : RepoResult) : RepoResult :=
  ⟨r.repoMetadata, r.apps.map stripApp⟩

/-- Drop empty-message results from a whole results file. -/
def stripData (d : List RepoResult) : List RepoResult :=
  d.map stripRepo

/-- A one-repository results file whose two results carry positive
errorCounts but an empty (resp. absent) messages field. -/
def c10data : List RepoResult :=
  [⟨⟨1, "https://u"⟩,
    [⟨["a"], some [⟨5, some []⟩]⟩, ⟨["b"], some [⟨7, none⟩]⟩]⟩]

/-- A repository working tree that is itself a UI5 app: the marker file,
the conventional subdirectory and the manifest sit at the clone root. -/
def rootApp : FsForest :=
  FsForest.fileE "ui5.yaml"
    (FsForest.dirE "webapp" (FsForest.fileE "manifest.json" FsForest.nil) FsForest.nil)

/-- A well-formed working tree with exactly one qualifying sub-directory
`app1`. -/
def oneAppRepo : FsForest :=
  FsForest.dirE "app1"
    (FsForest.fileE "ui5.yaml"
      (FsForest.dirE "webapp" (FsForest.fileE "manifest.json" FsForest.nil) FsForest.nil))
    FsForest.nil

/-! ## Helper lemmas about the Lint Runner -/

/-- Whatever the tool and the parser do, runUI5Linter resolves (returns)
rather than rejects. -/
lemma runUI5Linter_never_throws {α : Type} (exec : Except JsError String)
    (parse : String → Except JsError α) :
    ∃ v, runUI5Linter exec parse = Except.ok v := by
  rcases exec with e | s
  · rcases hs : e.stdoutField with _ | s
    · exact ⟨none, by simp [runUI5Linter, hs]⟩
    · by_cases hemp : s = ""
      · exact ⟨none, by simp [runUI5Linter, hs, hemp]⟩
      · rcases hp : parse s with e2 | v
        · exact ⟨none, by simp [runUI5Linter, hs, hemp, hp]⟩
        · exact ⟨some v, by simp [runUI5Linter, hs, hemp, hp]⟩
  · rcases hp : parse s with e2 | v
    · rcases hs : e2.stdoutField with _ | s2
      · exact ⟨none, by simp [runUI5Linter, hp, hs]⟩
      · by_cases hemp : s2 = ""
        · exact ⟨none, by simp [runUI5Linter, hp, hs, hemp]⟩
        · rcases hp2 : parse s2 with e3 | v2
          · exact ⟨none, by simp [runUI5Linter, hp, hs, hemp, hp2]⟩
          · exact ⟨some v2, by simp [runUI5Linter, hp, hs, hemp, hp2]⟩
    · exact ⟨some v, by simp [runUI5Linter, hp]⟩

/-- The lint loop of processBatch never escapes with an exception. -/
lemma lintLoop_ok (env : RepoEnv) (i : Nat) :
    ∀ (apps : List (List String)) (acc : List AppResult),
      ∃ l, (lintLoop env i apps acc).2 = Except.ok l := by
  intro apps
  induction apps with
  | nil => exact fun acc => ⟨acc, rfl⟩
  | cons a rest ih =>
    intro acc
    rcases runUI5Linter_never_throws (env.lintExec a) env.parse with ⟨v, hv⟩
    rcases v with _ | lr
    · simpa [lintLoop, hv] using ih acc
    · simpa [lintLoop, hv] using ih (acc ++ [⟨a, some lr⟩])

/-- Every event the lint loop emits is a lint invocation for repository
`i`. -/
lemma lintLoop_events (env : RepoEnv) (i : Nat) :
    ∀ (apps : List (List String)) (acc : List AppResult),
      ∀ e ∈ (lintLoop env i apps acc).1, ∃ a, e = Event.lint i a := by
  intro apps
  induction apps with
  | nil => intro acc e he; simp [lintLoop] at he
  | cons a rest ih =>
    intro acc e he
    rcases runUI5Linter_never_throws (env.lintExec a) env.parse with ⟨v, hv⟩
    rcases v with _ | lr
    · rcases (by simpa [lintLoop, hv] using he : e = Event.lint i a ∨
        e ∈ (lintLoop env i rest acc).1) with h | h
      · exact ⟨a, h⟩
      · exact ih acc e h
    · rcases (by simpa [lintLoop, hv] using he : e = Event.lint i a ∨
        e ∈ (lintLoop env i rest (acc ++ [⟨a, some lr⟩])).1) with h | h
      · exact ⟨a, h⟩
      · exact ih _ e h

/-- Case equation: a failed clone aborts the try body. -/
lemma processRepoCore_eq_err_clone (env : RepoEnv) (repo : Repo) (e1 : JsError)
    (hc : env.cloneOutcome = Except.error e1) :
    processRepoCore env repo = (none, [Event.clone repo.id]) := by
  unfold processRepoCore; simp only [hc]

/-- Case equation: a failed discovery aborts the try body after the
clone. -/
lemma processRepoCore_eq_err_discover (env : RepoEnv) (repo : Repo)
    (tree : FsForest) (e2 : JsError)
    (hc : env.cloneOutcome = Except.ok tree)
    (hd : env.discoverOutcome = Except.error e2) :
    processRepoCore env repo = (none, [Event.clone repo.id, Event.discover repo.id]) := by
  unfold processRepoCore; simp only [hc, hd]

/-- Case equation: an exception escaping the lint loop aborts the try
body (unreachable by `lintLoop_ok`, but part of the control flow). -/
lemma processRepoCore_eq_err_lint (env : RepoEnv) (repo : Repo)
    (tree : FsForest) (e3 : JsError)
    (hc : env.cloneOutcome = Except.ok tree)
    (hd : env.discoverOutcome = Except.ok ())
    (hl : (lintLoop env repo.id (findUI5Apps [] tree) []).2 = Except.error e3) :
    processRepoCore env repo =
      (none, Event.clone repo.id :: Event.discover repo.id ::
        (lintLoop env repo.id (findUI5Apps [] tree) []).1) := by
  unfold processRepoCore; simp only [hc, hd, hl]

/-- Case equation: when clone and discovery succeed the try body builds
the repository result from whatever the lint loop accumulated. -/
lemma processRepoCore_eq_ok (env : RepoEnv) (repo : Repo)
    (tree : FsForest) (l : List AppResult)
    (hc : env.cloneOutcome = Except.ok tree)
    (hd : env.discoverOutcome = Except.ok ())
    (hl : (lintLoop env repo.id (findUI5Apps [] tree) []).2 = Except.ok l) :
    processRepoCore env repo =
      (some ⟨⟨repo.id, repo.html_url⟩, l⟩,
       Event.clone repo.id :: Event.discover repo.id ::
         (lintLoop env repo.id (findUI5Apps [] tree) []).1) := by
  unfold processRepoCore; simp only [hc, hd, hl]

/-- All events of the per-repository try/catch body belong to its
repository, and none of them is a cleanup. -/
lemma processRepoCore_events (env : RepoEnv) (repo : Repo) :
    ∀ e ∈ (processRepoCore env repo).2,
      e.repoId = repo.id ∧ ∀ j, e ≠ Event.cleanup j := by
  intro e he
  have hcases : (∃ a, e = Event.lint repo.id a) ∨
      e = Event.clone repo.id ∨ e = Event.discover repo.id := by
    rcases hc : env.cloneOutcome with e1 | tree
    · rw [processRepoCore_eq_err_clone env repo e1 hc] at he
      right; left; simpa using he
    · rcases hd : env.discoverOutcome with e2 | u
      · rw [processRepoCore_eq_err_discover env repo tree e2 hc hd] at he
        right; simpa using he
      · rcases hl : (lintLoop env repo.id (findUI5Apps [] tree) []).2 with e3 | l
        · rw [processRepoCore_eq_err_lint env repo tree e3 hc hd hl] at he
          rcases (by simpa using he :
              e = Event.clone repo.id ∨ e = Event.discover repo.id ∨
                e ∈ (lintLoop env repo.id (findUI5Apps [] tree) []).1) with h | h | h
          · exact Or.inr (Or.inl h)
          · exact Or.inr (Or.inr h)
          · exact Or.inl (lintLoop_events env repo.id _ _ e h)
        · rw [processRepoCore_eq_ok env repo tree l hc hd hl] at he
          rcases (by simpa using he :
              e = Event.clone repo.id ∨ e = Event.discover repo.id ∨
                e ∈ (lintLoop env repo.id (findUI5Apps [] tree) []).1) with h | h | h
          · exact Or.inr (Or.inl h)
          · exact Or.inr (Or.inr h)
          · exact Or.inl (lintLoop_events env repo.id _ _ e h)
  rcases hcases with ⟨a, rfl⟩ | rfl | rfl
  · exact ⟨rfl, fun j h => Event.noConfusion h⟩
  · exact ⟨rfl, fun j h => Event.noConfusion h⟩
  · exact ⟨rfl, fun j h => Event.noConfusion h⟩

/-- All events of a full per-repository processing belong to its
repository. -/
lemma processRepo_repoId (env : RepoEnv) (repo : Repo) :
    ∀ e ∈ (processRepo env repo).2, e.repoId = repo.id := by
  intro e he
  rcases (by simpa [processRepo] using he :
      e ∈ (processRepoCore env repo).2 ∨ e = Event.cleanup repo.id) with h | h
  · exact (processRepoCore_events env repo e h).1
  · subst h; rfl

/-! ## C3: the Lint Runner's error policy -/

/-- C3: for every invocation of the Lint Runner, (1) runUI5Linter never
raises to its caller; (2) when the tool throws (nonzero exit) but captured
a standard output that parses, the parsed value is returned; (3) when the
thrown error carries no output, an empty (falsy) output, or an output that
fails to parse, the absence marker `null` is returned. -/
theorem runUI5Linter_error_policy :
    (∀ (α : Type) (exec : Except JsError String) (parse : String → Except JsError α),
      ∃ v, runUI5Linter exec parse = Except.ok v) ∧
    (∀ (α : Type) (e : JsError) (s : String) (parse : String → Except JsError α) (v : α),
      e.stdoutField = some s → s ≠ "" → parse s = Except.ok v →
      runUI5Linter (Except.error e) parse = Except.ok (some v)) ∧
    (∀ (α : Type) (e : JsError) (parse : String → Except JsError α),
      (e.stdoutField = none ∨ e.stdoutField = some "" ∨
        ∃ s e2, e.stdoutField = some s ∧ parse s = Except.error e2) →
      runUI5Linter (Except.error e) parse = Except.ok none) := by
  refine ⟨fun α exec parse => runUI5Linter_never_throws exec parse, ?_, ?_⟩
  · intro α e s parse v hs hemp hp
    simp [runUI5Linter, hs, hemp, hp]
  · intro α e parse h
    rcases h with h | h | ⟨s, e2, hs, hp⟩
    · simp [runUI5Linter, h]
    · simp [runUI5Linter, h]
    · by_cases hemp : s = ""
      · simp [runUI5Linter, hs, hemp]
      · simp [runUI5Linter, hs, hemp, hp]

/-- Witness for C3 at concrete inputs: a nonzero-exit error whose captured
output parses yields the parsed report; a nonzero-exit error with no
output yields null; an unparseable output yields null. -/
theorem runUI5Linter_error_policy_witness :
    runUI5Linter (α := Nat) (Except.error (JsError.execError (some "42") "exit 1"))
      (fun s => if s = "42" then Except.ok 42 else Except.error (JsError.otherError "bad")) =
      Except.ok (some 42) ∧
    runUI5Linter (α := Nat) (Except.error (JsError.execError none "spawn failed"))
      (fun s => if s = "42" then Except.ok 42 else Except.error (JsError.otherError "bad")) =
      Except.ok none ∧
    runUI5Linter (α := Nat) (Except.error (JsError.execError (some "oops") "exit 2"))
      (fun s => if s = "42" then Except.ok 42 else Except.error (JsError.otherError "bad")) =
      Except.ok none := by
  refine ⟨?_, ?_, ?_⟩
  · exact runUI5Linter_error_policy.2.1 Nat _ "42" _ 42 rfl (by decide) rfl
  · exact runUI5Linter_error_policy.2.2 Nat _ _ (Or.inl rfl)
  · exact runUI5Linter_error_policy.2.2 Nat _ _
      (Or.inr (Or.inr ⟨"oops", JsError.otherError "bad", rfl, rfl⟩))

/-! ## C7: unconditional workspace cleanup -/

/-- C7: for every repository handled by processBatch, the removal of its
temporary clone directory is the final action of its processing, and it
happens exactly once — on every exit path (success, zero sub-projects, or
a thrown error).  Removal itself never propagates an error (the `rm` runs
with `force: true` and is modelled as total). -/
theorem processRepo_always_cleans_up :
    ∀ (env : RepoEnv) (repo : Repo),
      (processRepo env repo).2.getLast? = some (Event.cleanup repo.id) ∧
      (processRepo env repo).2.count (Event.cleanup repo.id) = 1 := by
  intro env repo
  constructor
  · show ((processRepoCore env repo).2 ++ [Event.cleanup repo.id]).getLast? = _
    exact List.getLast?_concat _
  · show ((processRepoCore env repo).2 ++ [Event.cleanup repo.id]).count _ = 1
    rw [List.count_append]
    have h0 : (processRepoCore env repo).2.count (Event.cleanup repo.id) = 0 :=
      List.count_eq_zero_of_not_mem
        (fun hm => (processRepoCore_events env repo _ hm).2 repo.id rfl)
    simp [h0]

/-! ## C5: how the results file is written -/

/-- C5 (amended): searchGitHub.js merges by concatenation — the prior file
contents are preserved, in order, as a prefix of the written file —
whereas ui5lintCheckRepos.js overwrites the results file with only this
run's accumulated results, discarding the prior contents. -/
theorem resultsFile_write_behavior :
    (∀ (env : Nat → RepoEnv) (meta : Nat → Option RepoMetaLite)
        (hits : List SearchHit) (processed0 : List String)
        (fileBefore : List SearchRepoResult),
      (searchMain env meta hits processed0 fileBefore).resultsFile =
        fileBefore ++ (searchMain env meta hits processed0 fileBefore).results) ∧
    (∀ (env : Nat → RepoEnv) (repos : List Repo) (processed0 : List String)
        (fileBefore : List RepoResult),
      (ui5lintMain env repos processed0 fileBefore).resultsFile =
        (ui5lintMain env repos processed0 fileBefore).results) := by
  exact ⟨fun _ _ _ _ _ => rfl, fun _ _ _ _ => rfl⟩

/-- Counterexample to C5 as stated: a run of ui5lintCheckRepos.js `main`
over an empty repository list, with one Repository Result already on disk,
writes a results file that does NOT preserve the prior contents as a
prefix followed by this run's results — the prior result is lost. -/
theorem resultsFile_write_counterexample :
    (ui5lintMain envErr [] [] fileR1).resultsFile ≠
      fileR1 ++ (ui5lintMain envErr [] [] fileR1).results := by
  decide

/-! ## C2: what is checkpointed and what is recorded -/

/-- C2: for a repository reached (not skipped) by processBatch:
the per-repository block yields no result exactly when a processing step
threw (clone failure, or discovery failure after a successful clone — the
lint loop itself cannot throw, by `lintLoop_ok`); a produced result always
carries the repository's own metadata; when the block threw, processBatch
neither appends a result nor adds the id to the Checkpoint Set; when it
completed — with any `apps` list, including the empty one — processBatch
appends exactly its result and adds the stringified id to the set. -/
theorem processBatch_checkpoint_discipline :
    ∀ (env : Nat → RepoEnv) (r : Repo) (rest : List Repo) (s : List String),
      setHas s (toString r.id) = false →
      ((processRepo (env r.id) r).1 = none ↔
        (∃ e, (env r.id).cloneOutcome = Except.error e) ∨
        (∃ tree, (env r.id).cloneOutcome = Except.ok tree ∧
          ∃ e, (env r.id).discoverOutcome = Except.error e)) ∧
      (∀ res, (processRepo (env r.id) r).1 = some res →
        res.repoMetadata = ⟨r.id, r.html_url⟩) ∧
      ((processRepo (env r.id) r).1 = none →
        processBatch env (r :: rest) s =
          ((processBatch env rest s).1, (processBatch env rest s).2.1,
           (processRepo (env r.id) r).2 ++ (processBatch env rest s).2.2)) ∧
      (∀ res, (processRepo (env r.id) r).1 = some res →
        processBatch env (r :: rest) s =
          (res :: (processBatch env rest (setAdd s (toString r.id))).1,
           (processBatch env rest (setAdd s (toString r.id))).2.1,
           (processRepo (env r.id) r).2 ++
             (processBatch env rest (setAdd s (toString r.id))).2.2)) := by
  intro env r rest s hskip
  have h1 : (processRepo (env r.id) r).1 = (processRepoCore (env r.id) r).1 := rfl
  refine ⟨?_, ?_, ?_, ?_⟩
  · constructor
    · intro hnone
      rcases hc : (env r.id).cloneOutcome with e1 | tree
      · exact Or.inl ⟨e1, rfl⟩
      · rcases hd : (env r.id).discoverOutcome with e2 | u
        · exact Or.inr ⟨tree, rfl, e2, rfl⟩
        · exfalso
          cases u
          rcases lintLoop_ok (env r.id) r.id (findUI5Apps [] tree) [] with ⟨l, hl⟩
          rw [h1, processRepoCore_eq_ok (env r.id) r tree l hc hd hl] at hnone
          simp at hnone
    · intro h
      rcases h with ⟨e1, hc⟩ | ⟨tree, hc, e2, hd⟩
      · rw [h1, processRepoCore_eq_err_clone (env r.id) r e1 hc]
      · rw [h1, processRepoCore_eq_err_discover (env r.id) r tree e2 hc hd]
  · intro res hres
    rcases hc : (env r.id).cloneOutcome with e1 | tree
    · rw [h1, processRepoCore_eq_err_clone (env r.id) r e1 hc] at hres
      simp at hres
    · rcases hd : (env r.id).discoverOutcome with e2 | u
      · rw [h1, processRepoCore_eq_err_discover (env r.id) r tree e2 hc hd] at hres
        simp at hres
      · cases u
        rcases lintLoop_ok (env r.id) r.id (findUI5Apps [] tree) [] with ⟨l, hl⟩
        rw [h1, processRepoCore_eq_ok (env r.id) r tree l hc hd hl] at hres
        obtain rfl : res = ⟨⟨r.id, r.html_url⟩, l⟩ := by
          have := hres.symm
          simpa using this
        rfl
  · intro hnone
    rcases hpr : processRepo (env r.id) r with ⟨o, evs⟩
    have ho : o = none := by rw [hpr] at hnone; exact hnone
    subst ho
    simp [processBatch, hskip, hpr]
  · intro res hres
    rcases hpr : processRepo (env r.id) r with ⟨o, evs⟩
    have ho : o = some res := by rw [hpr] at hres; exact hres
    subst ho
    simp [processBatch, hskip, hpr]

/-- Witness for C2 at a concrete input: a repository that clones fine and
yields zero sub-projects is recorded with an empty apps list and its id is
checkpointed. -/
theorem processBatch_checkpoint_discipline_witness :
    processBatch envOkEmpty [repo1] [] =
      ([⟨⟨1, "https://u1"⟩, []⟩], ["1"],
       [Event.clone 1, Event.discover 1, Event.cleanup 1]) := by
  have h := processBatch_checkpoint_discipline envOkEmpty repo1 [] [] (by decide)
  have hres : (processRepo (envOkEmpty repo1.id) repo1).1 = some ⟨⟨1, "https://u1"⟩, []⟩ := by
    decide
  exact (h.2.2.2 ⟨⟨1, "https://u1"⟩, []⟩ hres).trans (by decide)

/-! ## Helper lemmas for C1: the Checkpoint Set only grows and shields -/

/-- Adding an element never removes one. -/
lemma setHas_setAdd (s : List String) (x y : String) (h : setHas s y = true) :
    setHas (setAdd s x) y = true := by
  unfold setAdd
  split
  · exact h
  · unfold setHas at h ⊢
    rw [List.any_append]
    simp [h]

/-- processBatch only adds to the Checkpoint Set. -/
lemma processBatch_mono (env : Nat → RepoEnv) :
    ∀ (batch : List Repo) (s : List String) (y : String),
      setHas s y = true → setHas (processBatch env batch s).2.1 y = true := by
  intro batch
  induction batch with
  | nil => intro s y h; simpa [processBatch] using h
  | cons r rest ih =>
    intro s y h
    by_cases hskip : setHas s (toString r.id) = true
    · simpa [processBatch, hskip] using ih s y h
    · have hskip' : setHas s (toString r.id) = false := Bool.eq_false_iff.mpr hskip
      rcases hpr : processRepo (env r.id) r with ⟨o, evs⟩
      cases o with
      | none => simpa [processBatch, hskip', hpr] using ih s y h
      | some res =>
        simpa [processBatch, hskip', hpr] using
          ih (setAdd s (toString r.id)) y (setHas_setAdd s (toString r.id) y h)

/-- processBatch never emits an event for a repository whose stringified
id is in the Checkpoint Set it was given. -/
lemma processBatch_no_events (env : Nat → RepoEnv) :
    ∀ (batch : List Repo) (s : List String) (n : Nat),
      setHas s (toString n) = true →
      ∀ e ∈ (processBatch env batch s).2.2, e.repoId ≠ n := by
  intro batch
  induction batch with
  | nil => intro s n h e he; simp [processBatch] at he
  | cons r rest ih =>
    intro s n h e he
    by_cases hskip : setHas s (toString r.id) = true
    · rw [show processBatch env (r :: rest) s = processBatch env rest s by
        simp [processBatch, hskip]] at he
      exact ih s n h e he
    · have hskip' : setHas s (toString r.id) = false := Bool.eq_false_iff.mpr hskip
      have hne : r.id ≠ n := by
        intro heq
        rw [heq, h] at hskip'
        cases hskip'
      rcases hpr : processRepo (env r.id) r with ⟨o, evs⟩
      have hevs : ∀ e2 ∈ evs, Event.repoId e2 = r.id := by
        intro e2 he2
        exact processRepo_repoId (env r.id) r e2 (by rw [hpr]; exact he2)
      cases o with
      | none =>
        rcases (by simpa [processBatch, hskip', hpr] using he :
            e ∈ evs ∨ e ∈ (processBatch env rest s).2.2) with hev | hev
        · rw [hevs e hev]; exact hne
        · exact ih s n h e hev
      | some res =>
        rcases (by simpa [processBatch, hskip', hpr] using he :
            e ∈ evs ∨ e ∈ (processBatch env rest (setAdd s (toString r.id))).2.2)
            with hev | hev
        · rw [hevs e hev]; exact hne
        · exact ih (setAdd s (toString r.id)) n
            (setHas_setAdd s (toString r.id) (toString n) h) e hev

/-- runBatches only adds to the Checkpoint Set. -/
lemma runBatches_mono (env : Nat → RepoEnv) :
    ∀ (bs : List (List Repo)) (s : List String) (y : String),
      setHas s y = true → setHas (runBatches env bs s).2.1 y = true := by
  intro bs
  induction bs with
  | nil => intro s y h; simpa [runBatches] using h
  | cons b bs ih =>
    intro s y h
    simpa [runBatches] using ih (processBatch env b s).2.1 y (processBatch_mono env b s y h)

/-- runBatches never emits an event for a checkpointed repository. -/
lemma runBatches_no_events (env : Nat → RepoEnv) :
    ∀ (bs : List (List Repo)) (s : List String) (n : Nat),
      setHas s (toString n) = true →
      ∀ e ∈ (runBatches env bs s).2.2, e.repoId ≠ n := by
  intro bs
  induction bs with
  | nil => intro s n h e he; simp [runBatches] at he
  | cons b bs ih =>
    intro s n h e he
    rcases (by simpa [runBatches] using he :
        e ∈ (processBatch env b s).2.2 ∨ e ∈ (runBatches env bs (processBatch env b s).2.1).2.2)
        with hev | hev
    · exact processBatch_no_events env b s n h e hev
    · exact ih (processBatch env b s).2.1 n (processBatch_mono env b s (toString n) h) e hev

/-- The super-batch loop never emits a processing event for a repository
whose id was in the Checkpoint Set when the loop started. -/
lemma ui5lintLoop_no_events (env : Nat → RepoEnv) :
    ∀ (fuel : Nat) (rem : List Repo) (s : List String) (acc : List RepoResult) (n : Nat),
      setHas s (toString n) = true →
      ∀ ev ∈ (ui5lintLoop env fuel rem s acc).2.2, RunEvent.procId ev ≠ some n := by
  intro fuel
  induction fuel with
  | zero =>
    intro rem s acc n h ev hev
    cases rem <;> simp [ui5lintLoop] at hev
  | succ f ih =>
    intro rem s acc n h ev hev
    cases rem with
    | nil => simp [ui5lintLoop] at hev
    | cons r rest =>
      rcases (by simpa [ui5lintLoop, List.mem_append, List.mem_map] using hev :
          (∃ e ∈ (runBatches env (sliceBatches (r :: rest)) s).2.2, RunEvent.proc e = ev) ∨
          ev = RunEvent.superBatchDone ∨ ev = RunEvent.persistResults ∨
            ev = RunEvent.persistCheckpoint ∨
          ev ∈ (ui5lintLoop env f (List.drop 99 rest)
            (runBatches env (sliceBatches (r :: rest)) s).2.1
            (acc ++ (runBatches env (sliceBatches (r :: rest)) s).1)).2.2)
          with ⟨e, hmem, hproc⟩ | h1 | h1 | h1 | hrec
      · subst hproc
        intro hid
        exact runBatches_no_events env (sliceBatches (r :: rest)) s n h e hmem
          (by simpa [RunEvent.procId] using hid)
      · subst h1; simp [RunEvent.procId]
      · subst h1; simp [RunEvent.procId]
      · subst h1; simp [RunEvent.procId]
      · exact ih (List.drop 99 rest)
          (runBatches env (sliceBatches (r :: rest)) s).2.1
          (acc ++ (runBatches env (sliceBatches (r :: rest)) s).1) n
          (runBatches_mono env (sliceBatches (r :: rest)) s (toString n) h) ev hrec

/-! ## C1: checkpointed repositories are never reprocessed -/

/-- C1: a repository id in the Checkpoint Set at the start of a run is
(1) removed from the unprocessed list before partitioning, (2) never the
subject of any processing event (clone, discovery, lint, cleanup) in the
whole run, and (3) skipped by processBatch whenever its stringified id is
in the set processBatch consults. -/
theorem checkpointed_never_reprocessed :
    ∀ (env : Nat → RepoEnv) (repos : List Repo) (processed0 : List String)
      (fileBefore : List RepoResult) (n : Nat),
      setHas processed0 (toString n) = true →
      (∀ r ∈ unprocessedList repos processed0, r.id ≠ n) ∧
      (∀ ev ∈ (ui5lintMain env repos processed0 fileBefore).trace,
        RunEvent.procId ev ≠ some n) ∧
      (∀ (batch : List Repo) (s : List String), setHas s (toString n) = true →
        ∀ e ∈ (processBatch env batch s).2.2, e.repoId ≠ n) := by
  intro env repos processed0 fileBefore n h
  refine ⟨?_, ?_, fun batch s hs => processBatch_no_events env batch s n hs⟩
  · intro r hr heq
    have hmem := List.of_mem_filter hr
    rw [heq, h] at hmem
    cases hmem
  · intro ev hev
    rcases (by simpa [ui5lintMain, List.mem_append] using hev :
        ev ∈ (ui5lintLoop env (unprocessedList repos processed0).length
          (unprocessedList repos processed0) processed0 []).2.2 ∨
        (ev = RunEvent.persistResults ∨ ev = RunEvent.persistCheckpoint))
        with hloop | hfin
    · exact ui5lintLoop_no_events env _ _ _ _ n h ev hloop
    · rcases hfin with h1 | h1 <;> subst h1 <;> simp [RunEvent.procId]

/-- Witness for C1 at a concrete input: one repository with id 5 and a
Checkpoint Set already containing "5" — the run's trace contains no event
for id 5 (indeed no processing events at all). -/
theorem checkpointed_never_reprocessed_witness :
    setHas ["5"] (toString 5) = true ∧
    ((ui5lintMain envOkEmpty [⟨5, "o/r", "https://u"⟩] ["5"] []).trace.all
      (fun ev => decide (RunEvent.procId ev ≠ some 5))) = true := by
  refine ⟨by decide, ?_⟩
  have h := (checkpointed_never_reprocessed envOkEmpty [⟨5, "o/r", "https://u"⟩]
    ["5"] [] 5 (by decide)).2.1
  exact List.all_eq_true.mpr (fun ev hev => decide_eq_true (h ev hev))

/-! ## C4: persistence after every super-batch -/

/-- Processing events are transparent to the persistence checker. -/
lemma checker_proc_append (es : List Event) (rest : List RunEvent) :
    persistsAfterEachSuperBatch (es.map RunEvent.proc ++ rest) =
      persistsAfterEachSuperBatch rest := by
  induction es with
  | nil => rfl
  | cons e es ih => simpa [persistsAfterEachSuperBatch] using ih

/-- The trace of the ui5lintCheckRepos.js super-batch loop is a sequence
of complete blocks — processing events, the completion log, the results
write, the checkpoint write — so it is transparent to the checker. -/
lemma ui5lintLoop_checker (env : Nat → RepoEnv) :
    ∀ (fuel : Nat) (rem : List Repo) (s : List String) (acc : List RepoResult)
      (rest : List RunEvent),
      persistsAfterEachSuperBatch ((ui5lintLoop env fuel rem s acc).2.2 ++ rest) =
        persistsAfterEachSuperBatch rest := by
  intro fuel
  induction fuel with
  | zero => intro rem s acc rest; cases rem <;> simp [ui5lintLoop]
  | succ f ih =>
    intro rem s acc rest
    cases rem with
    | nil => simp [ui5lintLoop]
    | cons r rs =>
      show persistsAfterEachSuperBatch
        (((runBatches env (sliceBatches (r :: rs)) s).2.2.map RunEvent.proc ++
          [RunEvent.superBatchDone, RunEvent.persistResults, RunEvent.persistCheckpoint] ++
          (ui5lintLoop env f ((r :: rs).drop 100)
            (runBatches env (sliceBatches (r :: rs)) s).2.1
            (acc ++ (runBatches env (sliceBatches (r :: rs)) s).1)).2.2) ++ rest) = _
      rw [List.append_assoc, List.append_assoc, checker_proc_append]
      show persistsAfterEachSuperBatch (RunEvent.superBatchDone :: RunEvent.persistResults ::
        RunEvent.persistCheckpoint :: (_ ++ rest)) = _
      rw [show ∀ l, persistsAfterEachSuperBatch (RunEvent.superBatchDone ::
        RunEvent.persistResults :: RunEvent.persistCheckpoint :: l) =
        persistsAfterEachSuperBatch l from fun l => rfl]
      exact ih ((r :: rs).drop 100) _ _ rest

/-- The trace of the searchGitHub.js super-batch loop consists solely of
processing events and completion logs — no persistence events. -/
lemma searchLoop_events (env : Nat → RepoEnv) (meta : Nat → Option RepoMetaLite) :
    ∀ (fuel : Nat) (hits : List SearchHit) (s : List String)
      (acc : List SearchRepoResult),
      ∀ ev ∈ (searchLoop env meta fuel hits s acc).2.2,
        (∃ e, ev = RunEvent.proc e) ∨ ev = RunEvent.superBatchDone := by
  intro fuel
  induction fuel with
  | zero =>
    intro hits s acc ev hev
    cases hits <;> simp [searchLoop] at hev
  | succ f ih =>
    intro hits s acc ev hev
    cases hits with
    | nil => simp [searchLoop] at hev
    | cons h hs =>
      rcases (by simpa [searchLoop, List.mem_append, List.mem_map] using hev :
          (∃ e ∈ (searchRunBatches env meta (sliceBatches (h :: hs)) s).2.2,
            RunEvent.proc e = ev) ∨
          ev = RunEvent.superBatchDone ∨
          ev ∈ (searchLoop env meta f (List.drop 99 hs)
            (searchRunBatches env meta (sliceBatches (h :: hs)) s).2.1
            (acc ++ (searchRunBatches env meta (sliceBatches (h :: hs)) s).1)).2.2)
          with ⟨e, _, hproc⟩ | h1 | hrec
      · exact Or.inl ⟨e, hproc.symm⟩
      · exact Or.inr h1
      · exact ih (List.drop 99 hs) _ _ ev hrec

/-- C4 (amended): in ui5lintCheckRepos.js, after every super-batch
completes the accumulated results and the updated Checkpoint Set are
written before any further processing; in searchGitHub.js, by contrast,
the only results/checkpoint writes of the whole run are the two at the
very end, after all super-batches. -/
theorem persistence_per_super_batch :
    (∀ (env : Nat → RepoEnv) (repos : List Repo) (processed0 : List String)
        (fileBefore : List RepoResult),
      persistsAfterEachSuperBatch (ui5lintMain env repos processed0 fileBefore).trace = true) ∧
    (∀ (env : Nat → RepoEnv) (meta : Nat → Option RepoMetaLite)
        (hits : List SearchHit) (processed0 : List String)
        (fileBefore : List SearchRepoResult),
      ∃ es, (searchMain env meta hits processed0 fileBefore).trace =
          es ++ [RunEvent.persistResults, RunEvent.persistCheckpoint] ∧
        RunEvent.persistResults ∉ es ∧ RunEvent.persistCheckpoint ∉ es) := by
  constructor
  · intro env repos processed0 fileBefore
    show persistsAfterEachSuperBatch
      ((ui5lintLoop env (unprocessedList repos processed0).length
        (unprocessedList repos processed0) processed0 []).2.2 ++
       [RunEvent.persistResults, RunEvent.persistCheckpoint]) = true
    rw [ui5lintLoop_checker]
    rfl
  · intro env meta hits processed0 fileBefore
    refine ⟨(searchLoop env meta hits.length hits processed0 []).2.2, rfl, ?_, ?_⟩
    · intro hmem
      rcases searchLoop_events env meta hits.length hits processed0 [] _ hmem with ⟨e, he⟩ | he
      · exact RunEvent.noConfusion he
      · exact RunEvent.noConfusion he
    · intro hmem
      rcases searchLoop_events env meta hits.length hits processed0 [] _ hmem with ⟨e, he⟩ | he
      · exact RunEvent.noConfusion he
      · exact RunEvent.noConfusion he

/-- Counterexample to C4 as stated: a searchGitHub.js run over 101
repositories completes its first super-batch (100 repositories) and starts
the second without any write of results or checkpoint in between — the
persistence-after-every-super-batch property is false on its trace. -/
theorem persistence_per_super_batch_counterexample :
    persistsAfterEachSuperBatch
      (searchMain envErr (fun _ => none) hits101 [] []).trace = false := by
  decide

/-! ## C8: ranking of rule violations -/

/-- Membership in a stable descending insertion. -/
lemma mem_insertDesc (x b : String × Nat) :
    ∀ l, b ∈ insertDesc x l ↔ b = x ∨ b ∈ l := by
  intro l
  induction l with
  | nil => simp [insertDesc]
  | cons y ys ih =>
    by_cases hle : y.2 ≤ x.2
    · simp [insertDesc, hle]
    · simp only [insertDesc, hle, if_false, List.mem_cons, ih]
      tauto

/-- Inserting into a descending-sorted list keeps it descending-sorted. -/
lemma insertDesc_pairwise (x : String × Nat) :
    ∀ l : List (String × Nat), l.Pairwise (fun a b => b.2 ≤ a.2) →
      (insertDesc x l).Pairwise (fun a b => b.2 ≤ a.2) := by
  intro l
  induction l with
  | nil => intro _; simp [insertDesc]
  | cons y ys ih =>
    intro h
    rcases List.pairwise_cons.mp h with ⟨hy, hys⟩
    by_cases hle : y.2 ≤ x.2
    · rw [show insertDesc x (y :: ys) = x :: y :: ys by simp [insertDesc, hle]]
      refine List.pairwise_cons.mpr ⟨?_, h⟩
      intro b hb
      rcases List.mem_cons.mp hb with rfl | hb
      · exact hle
      · exact le_trans (hy b hb) hle
    · rw [show insertDesc x (y :: ys) = y :: insertDesc x ys by simp [insertDesc, hle]]
      refine List.pairwise_cons.mpr ⟨?_, ih hys⟩
      intro b hb
      rcases (mem_insertDesc x b ys).mp hb with rfl | hb
      · exact Nat.le_of_lt (Nat.lt_of_not_le hle)
      · exact hy b hb

/-- The sorted table is descending by count. -/
lemma sortByCountDesc_pairwise :
    ∀ l : List (String × Nat),
      (sortByCountDesc l).Pairwise (fun a b => b.2 ≤ a.2) := by
  intro l
  induction l with
  | nil => simp [sortByCountDesc]
  | cons x xs ih => exact insertDesc_pairwise x (sortByCountDesc xs) ih

/-- Inserting an element does not disturb the subsequence of any fixed
count: the elements it skips all have strictly larger counts. -/
lemma filter_insertDesc (x : String × Nat) (c : Nat) :
    ∀ l, (insertDesc x l).filter (fun p => decide (p.2 = c)) =
      if x.2 = c then x :: l.filter (fun p => decide (p.2 = c))
      else l.filter (fun p => decide (p.2 = c)) := by
  intro l
  induction l with
  | nil => by_cases hxc : x.2 = c <;> simp [insertDesc, List.filter_cons, hxc]
  | cons y ys ih =>
    by_cases hle : y.2 ≤ x.2
    · rw [show insertDesc x (y :: ys) = x :: y :: ys by simp [insertDesc, hle]]
      by_cases hxc : x.2 = c <;> simp [List.filter_cons, hxc]
    · rw [show insertDesc x (y :: ys) = y :: insertDesc x ys by simp [insertDesc, hle]]
      by_cases hxc : x.2 = c
      · have hyc : ¬(y.2 = c) := by
          intro h
          exact hle (by rw [h, hxc])
        simp [List.filter_cons, hyc, hxc, ih]
      · by_cases hyc : y.2 = c <;> simp [List.filter_cons, hyc, hxc, ih]

/-- Stability: for every count value, the sorted table restricted to that
count equals the unsorted table restricted to that count — ties stay in
first-encounter order. -/
lemma filter_sortByCountDesc (c : Nat) :
    ∀ l, (sortByCountDesc l).filter (fun p => decide (p.2 = c)) =
      l.filter (fun p => decide (p.2 = c)) := by
  intro l
  induction l with
  | nil => rfl
  | cons x xs ih =>
    rw [show sortByCountDesc (x :: xs) = insertDesc x (sortByCountDesc xs) from rfl,
        filter_insertDesc]
    by_cases hxc : x.2 = c <;> simp [List.filter_cons, hxc, ih]

/-- C8: the report's rule-violation table is sorted descending by count;
for each count value the tied entries keep the original first-encounter
order of the rule identifiers (the order of the pre-sort counter table,
which records rules in first-encounter order); topRuleViolations is
exactly the first 5 entries of the sorted table; and on counts 5, 3, 3
first encountered in that order, the count-5 rule is listed first with the
two count-3 rules keeping their relative order. -/
theorem rule_ranking :
    (∀ data : List RepoResult,
      (processFilePair data).allRuleViolations.Pairwise (fun a b => b.2 ≤ a.2)) ∧
    (∀ (data : List RepoResult) (c : Nat),
      (processFilePair data).allRuleViolations.filter (fun p => decide (p.2 = c)) =
        (aggregate data).ruleViolations.filter (fun p => decide (p.2 = c))) ∧
    (∀ data : List RepoResult,
      (processFilePair data).topRuleViolations =
        (processFilePair data).allRuleViolations.take 5) ∧
    (processFilePair c8data).allRuleViolations =
      [("rule-a", 5), ("rule-b", 3), ("rule-c", 3)] ∧
    (processFilePair c8data).topRuleViolations =
      [("rule-a", 5), ("rule-b", 3), ("rule-c", 3)] := by
  refine ⟨fun data => sortByCountDesc_pairwise _,
    fun data c => filter_sortByCountDesc c _, fun data => rfl, by decide, by decide⟩

/-! ## C9: the end-to-end aggregation scenario -/

/-- C9: the report over `c9data` has totalApps 1, totalLinterErrors equal
to the sub-project's reported errorCount (7), and a deprecated-API table
with exactly one key mapped to 2. -/
theorem aggregator_end_to_end :
    (processFilePair c9data).totalApps = 1 ∧
    (processFilePair c9data).totalLinterErrors = 7 ∧
    (processFilePair c9data).deprecatedApiMessages = [("Use of deprecated API", 2)] := by
  decide

/-! ## C10: results with absent or empty messages contribute nothing -/

/-- A fold ignores exactly the elements on which it is the identity. -/
lemma foldl_filter_noop {β : Type} (f : AggState → β → AggState) (p : β → Bool)
    (hf : ∀ st x, p x = false → f st x = st) :
    ∀ (l : List β) (st : AggState), (l.filter p).foldl f st = l.foldl f st := by
  intro l
  induction l with
  | nil => intro st; rfl
  | cons x xs ih =>
    intro st
    by_cases hx : p x = true
    · simp [List.filter_cons, hx, ih]
    · have hx' : p x = false := Bool.eq_false_iff.mpr hx
      simp [List.filter_cons, hx', hf st x hx', ih]

/-- Stripping empty-message results does not change an app's
contribution. -/
lemma processApp_stripApp (url : String) (st : AggState) (a : AppResult) :
    processApp url st (stripApp a) = processApp url st a := by
  unfold processApp stripApp
  cases hl : a.linterResult with
  | none => simp [hl]
  | some rs =>
    simp only [hl, Option.map_some]
    exact foldl_filter_noop (processResult url) resultHasMessages
      (fun st2 x hx => by simp [processResult, hx]) rs _

/-- Stripping empty-message results does not change a repository's
contribution. -/
lemma processRepoAgg_stripRepo (st : AggState) (r : RepoResult) :
    processRepoAgg st (stripRepo r) = processRepoAgg st r := by
  unfold processRepoAgg
  have hlen : repoHasApps (stripRepo r) = repoHasApps r := by
    simp [repoHasApps, stripRepo]
  rw [hlen]
  by_cases h : repoHasApps r = true
  · simp only [h, if_true]
    show ((r.apps.map stripApp).foldl (processApp r.repoMetadata.html_url) st) = _
    rw [List.foldl_map]
    exact List.foldl_ext _ _ st
      (fun st2 a _ => processApp_stripApp r.repoMetadata.html_url st2 a)
  · have h' : repoHasApps r = false := Bool.eq_false_iff.mpr h
    simp [h']

/-- Stripping empty-message results does not change the aggregation
state. -/
lemma aggregate_stripData (d : List RepoResult) :
    aggregate (stripData d) = aggregate d := by
  unfold aggregate stripData
  rw [List.foldl_map]
  exact List.foldl_ext _ _ _ (fun st r _ => processRepoAgg_stripRepo st r)

/-- C10: a tool-reported result whose messages field is absent or empty
contributes nothing to the report — deleting all such results leaves the
whole report unchanged — and in particular positive errorCounts under
empty or absent messages add nothing to totalLinterErrors and their
repository is not counted in repositoriesWithErrors. -/
theorem empty_messages_contribute_nothing :
    (∀ data : List RepoResult,
      processFilePair (stripData data) = processFilePair data) ∧
    (processFilePair c10data).totalLinterErrors = 0 ∧
    (processFilePair c10data).repositoriesWithErrors = 0 := by
  refine ⟨?_, by decide, by decide⟩
  intro data
  have hagg := aggregate_stripData data
  have hlen : (stripData data).length = data.length := by simp [stripData]
  have hfil : ((stripData data).filter repoHasApps).length =
      (data.filter repoHasApps).length := by
    rw [(List.countP_eq_length_filter _ _).symm, (List.countP_eq_length_filter _ _).symm]
    unfold stripData
    rw [List.countP_map]
    exact List.countP_congr (fun r _ => by
      show (repoHasApps (stripRepo r) = true) ↔ (repoHasApps r = true)
      simp [repoHasApps, stripRepo])
  simp [processFilePair, hagg, hlen, hfil]

/-! ## C6: correctness of sub-project discovery -/

/-- A name absent from a listing resolves to no directory. -/
lemma childDir_none_of_not_exists :
    ∀ (r : FsForest) (m : String), existsEntry r m = false → childDir r m = none := by
  intro r
  induction r with
  | nil => intro m _; rfl
  | fileE n rest ih =>
    intro m h
    by_cases hm : n = m
    · rw [show existsEntry (FsForest.fileE n rest) m = true by simp [existsEntry, hm]] at h
      cases h
    · simp only [childDir, if_neg hm]
      exact ih m (by simpa [existsEntry, hm] using h)
  | dirE n cs rest ihcs ih =>
    intro m h
    by_cases hm : n = m
    · rw [show existsEntry (FsForest.dirE n cs rest) m = true by simp [existsEntry, hm]] at h
      cases h
    · simp only [childDir, if_neg hm]
      exact ih m (by simpa [existsEntry, hm] using h)

/-- One step of path resolution. -/
lemma qualifiesAt_cons (cs : FsForest) (m : String) (q : List String) :
    qualifiesAt cs (m :: q) =
      (match childDir cs m with
       | some cs2 => qualifiesAt cs2 q
       | none => false) := by
  rcases h : childDir cs m with _ | cs2 <;> simp [qualifiesAt, dirAt, h]

/-- The empty path denotes the root listing itself. -/
lemma qualifiesAt_nil_path (cs : FsForest) : qualifiesAt cs [] = isUI5App cs := rfl

/-- Descending into a directory entry. -/
lemma qualifiesAt_dirE_self (n : String) (cs r : FsForest) (q : List String) :
    qualifiesAt (FsForest.dirE n cs r) (n :: q) = qualifiesAt cs q := by
  rw [qualifiesAt_cons]; simp [childDir]

/-- Paths that do not start with the entry's name pass it by. -/
lemma qualifiesAt_dirE_other (n : String) (cs r : FsForest) (m : String)
    (q : List String) (h : n ≠ m) :
    qualifiesAt (FsForest.dirE n cs r) (m :: q) = qualifiesAt r (m :: q) := by
  rw [qualifiesAt_cons, qualifiesAt_cons]; simp [childDir, h]

/-- A plain file cannot be descended into. -/
lemma qualifiesAt_fileE_self (n : String) (r : FsForest) (q : List String) :
    qualifiesAt (FsForest.fileE n r) (n :: q) = false := by
  rw [qualifiesAt_cons]; simp [childDir]

/-- Paths that do not start with the file's name pass it by. -/
lemma qualifiesAt_fileE_other (n : String) (r : FsForest) (m : String)
    (q : List String) (h : n ≠ m) :
    qualifiesAt (FsForest.fileE n r) (m :: q) = qualifiesAt r (m :: q) := by
  rw [qualifiesAt_cons, qualifiesAt_cons]; simp [childDir, h]

/-- No path starts at an absent entry. -/
lemma qualifiesAt_absent (r : FsForest) (n : String) (q : List String)
    (h : existsEntry r n = false) : qualifiesAt r (n :: q) = false := by
  rw [qualifiesAt_cons]; simp [childDir_none_of_not_exists r n h]

/-- Structures with the same qualifying paths have the same minimal
qualifying paths. -/
lemma minimalQual_congr {cs cs2 : FsForest}
    (h : ∀ q, q ≠ [] → qualifiesAt cs q = qualifiesAt cs2 q) (q : List String) :
    minimalQual cs q ↔ minimalQual cs2 q := by
  unfold minimalQual
  constructor
  · rintro ⟨hne, hq, hmin⟩
    refine ⟨hne, by rw [← h q hne]; exact hq, ?_⟩
    intro q1 q2 he h1 h2
    rw [← h q1 h1]
    exact hmin q1 q2 he h1 h2
  · rintro ⟨hne, hq, hmin⟩
    refine ⟨hne, by rw [h q hne]; exact hq, ?_⟩
    intro q1 q2 he h1 h2
    rw [h q1 h1]
    exact hmin q1 q2 he h1 h2

/-- When the level does not repeat the file's name, a leading plain file
changes no nonempty path's status. -/
lemma qualifiesAt_fileE_eq (n : String) (r : FsForest)
    (hnr : existsEntry r n = false) :
    ∀ q, q ≠ [] → qualifiesAt (FsForest.fileE n r) q = qualifiesAt r q := by
  intro q hq
  cases q with
  | nil => exact absurd rfl hq
  | cons m q2 =>
    by_cases hm : n = m
    · subst hm
      rw [qualifiesAt_fileE_self, qualifiesAt_absent r n q2 hnr]
    · exact qualifiesAt_fileE_other n r m q2 hm

/-- No minimal qualifying path can start at a name absent from the
level. -/
lemma minimalQual_head_absent (r : FsForest) (n : String)
    (hnr : existsEntry r n = false) :
    ∀ q2, ¬ minimalQual r (n :: q2) := by
  rintro q2 ⟨-, hq, -⟩
  rw [qualifiesAt_absent r n q2 hnr] at hq
  cases hq

/-- Characterization of minimal qualifying paths through a directory
entry: either the entry itself qualifies and the path stops there, or it
does not qualify and the tail is minimal inside it. -/
lemma minimalQual_dirE_self (n : String) (cs r : FsForest) (q2 : List String) :
    minimalQual (FsForest.dirE n cs r) (n :: q2) ↔
      ((q2 = [] ∧ isUI5App cs = true) ∨
       (q2 ≠ [] ∧ isUI5App cs = false ∧ minimalQual cs q2)) := by
  constructor
  · rintro ⟨hne, hq, hmin⟩
    rw [qualifiesAt_dirE_self] at hq
    by_cases hq2 : q2 = []
    · subst hq2
      exact Or.inl ⟨rfl, by rwa [qualifiesAt_nil_path] at hq⟩
    · have hfalse := hmin [n] q2 rfl (by simp) hq2
      rw [qualifiesAt_dirE_self, qualifiesAt_nil_path] at hfalse
      refine Or.inr ⟨hq2, hfalse, hq2, hq, ?_⟩
      intro q3 q4 he h3 h4
      have := hmin (n :: q3) q4 (by rw [← he]; rfl) (by simp) h4
      rwa [qualifiesAt_dirE_self] at this
  · rintro (⟨rfl, hcs⟩ | ⟨hq2, hcs, hne2, hqual2, hmin2⟩)
    · refine ⟨by simp, by rw [qualifiesAt_dirE_self, qualifiesAt_nil_path]; exact hcs, ?_⟩
      intro q3 q4 he h3 h4
      exfalso
      have hlen := congrArg List.length he
      simp [List.length_append] at hlen
      have l3 : 0 < q3.length := List.length_pos.mpr h3
      have l4 : 0 < q4.length := List.length_pos.mpr h4
      omega
    · refine ⟨by simp, by rw [qualifiesAt_dirE_self]; exact hqual2, ?_⟩
      intro q3 q4 he h3 h4
      cases q3 with
      | nil => exact absurd rfl h3
      | cons m3 q3' =>
        have ha : m3 = n := by
          rw [show (m3 :: q3') ++ q4 = m3 :: (q3' ++ q4) from rfl] at he
          injection he
        have he' : q3' ++ q4 = q2 := by
          rw [show (m3 :: q3') ++ q4 = m3 :: (q3' ++ q4) from rfl] at he
          injection he
        rw [ha, qualifiesAt_dirE_self]
        cases q3' with
        | nil => rw [qualifiesAt_nil_path]; exact hcs
        | cons a b => exact hmin2 (a :: b) q4 he' (by simp) h4

/-- Minimal qualifying paths that pass a directory entry by are exactly
the minimal qualifying paths of the remaining level. -/
lemma minimalQual_dirE_other (n : String) (cs r : FsForest) (m : String)
    (q2 : List String) (hm : n ≠ m) :
    minimalQual (FsForest.dirE n cs r) (m :: q2) ↔ minimalQual r (m :: q2) := by
  constructor
  · rintro ⟨hne, hq, hmin⟩
    refine ⟨hne, by rwa [qualifiesAt_dirE_other n cs r m q2 hm] at hq, ?_⟩
    intro q3 q4 he h3 h4
    cases q3 with
    | nil => exact absurd rfl h3
    | cons m3 q3' =>
      have ha : m3 = m := by
        rw [show (m3 :: q3') ++ q4 = m3 :: (q3' ++ q4) from rfl] at he
        injection he
      have hm3 : n ≠ m3 := by rw [ha]; exact hm
      have := hmin (m3 :: q3') q4 he (by simp) h4
      rwa [qualifiesAt_dirE_other n cs r m3 q3' hm3] at this
  · rintro ⟨hne, hq, hmin⟩
    refine ⟨hne, by rw [qualifiesAt_dirE_other n cs r m q2 hm]; exact hq, ?_⟩
    intro q3 q4 he h3 h4
    cases q3 with
    | nil => exact absurd rfl h3
    | cons m3 q3' =>
      have ha : m3 = m := by
        rw [show (m3 :: q3') ++ q4 = m3 :: (q3' ++ q4) from rfl] at he
        injection he
      have hm3 : n ≠ m3 := by rw [ha]; exact hm
      rw [qualifiesAt_dirE_other n cs r m3 q3' hm3]
      exact hmin (m3 :: q3') q4 he (by simp) h4

/-- In a duplicate-free list, a member is counted exactly once. -/
lemma count_one_of_nodup_mem {α : Type} [BEq α] [LawfulBEq α] :
    ∀ (l : List α) (a : α), l.Nodup → a ∈ l → l.count a = 1 := by
  intro l
  induction l with
  | nil => intro a _ ha; cases ha
  | cons x xs ih =>
    intro a hn ha
    obtain ⟨hx, hxs⟩ := List.nodup_cons.mp hn
    rcases List.mem_cons.mp ha with rfl | ha2
    · have h0 : xs.count a = 0 := List.count_eq_zero.mpr hx
      simp [List.count_cons, h0]
    · have hne : ¬(a = x) := fun h => hx (h ▸ ha2)
      simp [List.count_cons, hne, ih a hxs ha2]

/-- The membership characterization of discovery: on a well-formed tree,
the reported paths are exactly the minimal qualifying proper-descendant
paths, each prefixed with the root path of the call. -/
lemma mem_findUI5Apps :
    ∀ (cs : FsForest), wfForest cs = true → ∀ (pfx p : List String),
      (p ∈ findUI5Apps pfx cs ↔ ∃ q, p = pfx ++ q ∧ minimalQual cs q) := by
  intro cs
  induction cs with
  | nil =>
    intro _ pfx p
    constructor
    · intro h; exact absurd h (by simp [findUI5Apps])
    · rintro ⟨q, hpq, hne, hq, hmin⟩
      cases q with
      | nil => exact absurd rfl hne
      | cons m q2 =>
        rw [show qualifiesAt FsForest.nil (m :: q2) = false from rfl] at hq
        cases hq
  | fileE n r ih =>
    intro hwf pfx p
    obtain ⟨hnr, hwr⟩ : existsEntry r n = false ∧ wfForest r = true := by
      simpa [wfForest, Bool.and_eq_true, Bool.not_eq_true'] using hwf
    rw [show findUI5Apps pfx (FsForest.fileE n r) = findUI5Apps pfx r from rfl,
        ih hwr pfx p]
    apply exists_congr
    intro q
    apply and_congr_right
    intro _
    exact minimalQual_congr (fun q2 hq2 => (qualifiesAt_fileE_eq n r hnr q2 hq2).symm) q
  | dirE n cs r ihcs ihr =>
    intro hwf pfx p
    obtain ⟨⟨hnr, hwcs⟩, hwr⟩ :
        (existsEntry r n = false ∧ wfForest cs = true) ∧ wfForest r = true := by
      simpa [wfForest, Bool.and_eq_true, Bool.not_eq_true'] using hwf
    rw [show findUI5Apps pfx (FsForest.dirE n cs r) =
      ((if isUI5App cs then [pfx ++ [n]] else findUI5Apps (pfx ++ [n]) cs) ++
        findUI5Apps pfx r) from rfl]
    constructor
    · intro hp
      rcases List.mem_append.mp hp with hp1 | hp2
      · by_cases hUI : isUI5App cs = true
        · rw [if_pos hUI] at hp1
          simp only [List.mem_singleton] at hp1
          exact ⟨[n], hp1, (minimalQual_dirE_self n cs r []).mpr (Or.inl ⟨rfl, hUI⟩)⟩
        · have hUI2 : isUI5App cs = false := Bool.eq_false_iff.mpr hUI
          rw [if_neg hUI] at hp1
          rcases (ihcs hwcs (pfx ++ [n]) p).mp hp1 with ⟨q2, hpq, hmin⟩
          refine ⟨n :: q2, by rw [hpq]; simp, ?_⟩
          exact (minimalQual_dirE_self n cs r q2).mpr (Or.inr ⟨hmin.1, hUI2, hmin⟩)
      · rcases (ihr hwr pfx p).mp hp2 with ⟨q, hpq, hminr⟩
        cases q with
        | nil => exact absurd rfl hminr.1
        | cons m q2 =>
          by_cases hm : n = m
          · subst hm
            exact absurd hminr (minimalQual_head_absent r n hnr q2)
          · exact ⟨m :: q2, hpq, (minimalQual_dirE_other n cs r m q2 hm).mpr hminr⟩
    · rintro ⟨q, hpq, hmin⟩
      cases q with
      | nil => exact absurd rfl hmin.1
      | cons m q2 =>
        apply List.mem_append.mpr
        by_cases hm : n = m
        · subst hm
          rcases (minimalQual_dirE_self n cs r q2).mp hmin with
            ⟨rfl, hUI⟩ | ⟨hq2, hUI, hmincs⟩
          · left; rw [if_pos hUI]; simp [hpq]
          · left
            rw [if_neg (by simp [hUI])]
            apply (ihcs hwcs (pfx ++ [n]) p).mpr
            exact ⟨q2, by rw [hpq]; simp, hmincs⟩
        · right
          apply (ihr hwr pfx p).mpr
          exact ⟨m :: q2, hpq, (minimalQual_dirE_other n cs r m q2 hm).mp hmin⟩

/-- On a well-formed tree, discovery lists no path twice. -/
lemma findUI5Apps_nodup :
    ∀ (cs : FsForest), wfForest cs = true → ∀ pfx, (findUI5Apps pfx cs).Nodup := by
  intro cs
  induction cs with
  | nil => intro _ pfx; simp [findUI5Apps]
  | fileE n r ih =>
    intro hwf pfx
    obtain ⟨hnr, hwr⟩ : existsEntry r n = false ∧ wfForest r = true := by
      simpa [wfForest, Bool.and_eq_true, Bool.not_eq_true'] using hwf
    exact ih hwr pfx
  | dirE n cs r ihcs ihr =>
    intro hwf pfx
    obtain ⟨⟨hnr, hwcs⟩, hwr⟩ :
        (existsEntry r n = false ∧ wfForest cs = true) ∧ wfForest r = true := by
      simpa [wfForest, Bool.and_eq_true, Bool.not_eq_true'] using hwf
    rw [show findUI5Apps pfx (FsForest.dirE n cs r) =
      ((if isUI5App cs then [pfx ++ [n]] else findUI5Apps (pfx ++ [n]) cs) ++
        findUI5Apps pfx r) from rfl]
    apply List.nodup_append.mpr
    refine ⟨?_, ihr hwr pfx, ?_⟩
    · by_cases hUI : isUI5App cs = true
      · rw [if_pos hUI]; simp
      · rw [if_neg hUI]; exact ihcs hwcs (pfx ++ [n])
    · intro p hp1 hp2
      rcases (mem_findUI5Apps r hwr pfx p).mp hp2 with ⟨q, hpq, hminr⟩
      cases q with
      | nil => exact absurd rfl hminr.1
      | cons m q2 =>
        have hm : n ≠ m := by
          intro h
          subst h
          exact minimalQual_head_absent r n hnr q2 hminr
        have hshape : ∃ t, p = pfx ++ n :: t := by
          by_cases hUI : isUI5App cs = true
          · rw [if_pos hUI] at hp1
            simp only [List.mem_singleton] at hp1
            exact ⟨[], by simpa using hp1⟩
          · rw [if_neg hUI] at hp1
            rcases (mem_findUI5Apps cs hwcs (pfx ++ [n]) p).mp hp1 with ⟨q3, hpq3, -⟩
            exact ⟨q3, by simpa using hpq3⟩
        rcases hshape with ⟨t, hpt⟩
        have h2 := List.append_cancel_left (hpt.symm.trans hpq)
        injection h2 with h3 _
        exact hm h3

/-- C6 (amended): on a well-formed tree, findUI5Apps reports exactly the
proper-descendant directories that pass the structural test and have no
qualifying proper ancestor below the root (the root itself is never
tested, see the counterexample): each such directory appears exactly once;
a tree with no qualifying proper-descendant directory yields the empty
sequence; and a qualifying directory is not descended into, so a
qualifying directory nested inside a qualifying one is never listed. -/
theorem findUI5Apps_discovery :
    ∀ cs : FsForest, wfForest cs = true →
      (∀ p, p ∈ findUI5Apps [] cs ↔ minimalQual cs p) ∧
      (∀ p, minimalQual cs p → (findUI5Apps [] cs).count p = 1) ∧
      ((∀ p, p ≠ [] → qualifiesAt cs p = false) → findUI5Apps [] cs = []) ∧
      (∀ q t, q ≠ [] → t ≠ [] → qualifiesAt cs q = true →
        q ++ t ∉ findUI5Apps [] cs) := by
  intro cs hwf
  have hmem : ∀ p, p ∈ findUI5Apps [] cs ↔ minimalQual cs p := by
    intro p
    rw [mem_findUI5Apps cs hwf [] p]
    constructor
    · rintro ⟨q, hpq, hq⟩
      rwa [show p = q from by simpa using hpq]
    · intro h
      exact ⟨p, by simp, h⟩
  refine ⟨hmem, ?_, ?_, ?_⟩
  · intro p hp
    exact count_one_of_nodup_mem (findUI5Apps [] cs) p
      (findUI5Apps_nodup cs hwf []) ((hmem p).mpr hp)
  · intro hnone
    apply List.eq_nil_iff_forall_not_mem.mpr
    intro p hp
    rcases (hmem p).mp hp with ⟨hne, hq, -⟩
    rw [hnone p hne] at hq
    cases hq
  · intro q t hq ht hqual hmem2
    rcases (hmem _).mp hmem2 with ⟨-, -, hmin⟩
    have := hmin q t rfl hq ht
    rw [hqual] at this
    cases this

/-- Counterexample to C6 as stated: the clone root itself satisfies the
structural test, yet findUI5Apps — which only ever tests proper
subdirectories — returns the empty list, so this qualifying directory
appears zero times, not exactly once. -/
theorem findUI5Apps_root_counterexample :
    qualifiesAt rootApp [] = true ∧
    findUI5Apps [] rootApp = [] ∧
    (findUI5Apps [] rootApp).count [] = 0 := by
  decide

/-- Witness for C6 at a concrete input: the qualifying sub-directory
`app1` of a well-formed tree is reported exactly once. -/
theorem findUI5Apps_discovery_witness :
    wfForest oneAppRepo = true ∧ (findUI5Apps [] oneAppRepo).count ["app1"] = 1 := by
  refine ⟨by decide, ?_⟩
  apply (findUI5Apps_discovery oneAppRepo (by decide)).2.1
  refine ⟨by decide, by decide, ?_⟩
  intro q1 q2 he h1 h2
  exfalso
  have hlen := congrArg List.length he
  simp [List.length_append] at hlen
  have l1 : 0 < q1.length := List.length_pos.mpr h1
  have l2 : 0 < q2.length := List.length_pos.mpr h2
  omega

end UI5
